import Mathlib

/- Shallow embedding of the WARP sampling-and-update kernel in
   mrec/mf/warp_fast.pyx.

   Modelling conventions:
   * ratings, thresholds and factor entries are rationals (exact float
     stand-ins) on the sampling side; the SGD updater uses reals because
     its L2 projection divides by a square root;
   * the C rand() stream is a function rng : Nat -> Nat, consumed at an
     explicit position t that every sampler threads through and returns;
   * the unbounded while-loops of the source take a fuel argument and
     return none when fuel runs out (a model artifact: every theorem is
     about runs that actually return);
   * CSR arrays are lists accessed with List.getD, matching the
     boundscheck-free reads of the source on well-formed inputs. -/

/- Dot product of two factor rows, U[u].dot(V[i]). -/
def dotQ (x y : List ℚ) : ℚ := (List.zipWith (fun a b => a * b) x y).sum

/- The linear scan `for jx in xrange(begin,end): if indices[jx] == j: break`
   of sample_negative_example: first position in [p, p+k) holding jv. -/
def scanFrom (indices : List ℕ) (jv : ℕ) : ℕ → ℕ → Option ℕ
  | _, 0 => none
  | p, k + 1 => if indices.getD p 0 = jv then some p else scanFrom indices jv (p + 1) k

/- First position in the half-open range [b, e) where indices holds jv. -/
def scanFound (indices : List ℕ) (jv b e : ℕ) : Option ℕ := scanFrom indices jv b (e - b)

/- sample_negative_example: draw j = rand() % num_items; accept when j is
   absent from the user's slice, or present with a rating strictly below
   the positive item's rating vals[ix]; otherwise redraw. -/
def sample_negative_example (ni : ℕ) (vals : List ℚ) (indices : List ℕ) (b e ix : ℕ)
    (rng : ℕ → ℕ) : ℕ → ℕ → Option (ℕ × ℕ)
  | _, 0 => none
  | t, fuel + 1 =>
    match scanFound indices (rng t % ni) b e with
    | none => some (rng t % ni, t + 1)
    | some jx =>
      if vals.getD jx 0 < vals.getD ix 0 then some (rng t % ni, t + 1)
      else sample_negative_example ni vals indices b e ix rng (t + 1) fuel

/- sample_positive_example: draw u = rand() % num_users; if the user's
   slice is nonempty draw a position ix uniformly inside it and accept
   when vals[ix] >= positive_thresh, returning (u, ix, indices[ix]). -/
def sample_positive_example (thresh : ℚ) (nu : ℕ) (vals : List ℚ) (indices indptr : List ℕ)
    (rng : ℕ → ℕ) : ℕ → ℕ → Option (ℕ × ℕ × ℕ × ℕ)
  | _, 0 => none
  | t, fuel + 1 =>
    let u := rng t % nu
    let b := indptr.getD u 0
    let e := indptr.getD (u + 1) 0
    if b < e then
      let ix := b + rng (t + 1) % (e - b)
      if thresh ≤ vals.getD ix 0 then some (u, ix, indices.getD ix 0, t + 2)
      else sample_positive_example thresh nu vals indices indptr rng (t + 2) fuel
    else sample_positive_example thresh nu vals indices indptr rng (t + 1) fuel

/- Body of the `for N in xrange(1, max_trials)` loop of
   sample_violating_negative_example: m is the number of remaining
   iterations, N the current trial number, r the precomputed margin
   reference U[u].dot(V[i]).  On exhaustion the source returns
   (-1, max_trials). -/
def svneGo (U V : List (List ℚ)) (vals : List ℚ) (indices : List ℕ) (b e u ix : ℕ) (r : ℚ)
    (max_trials : ℕ) (rng : ℕ → ℕ) (fuel : ℕ) : ℕ → ℕ → ℕ → Option (ℤ × ℕ × ℕ)
  | 0, _, t => some (-1, max_trials, t)
  | m + 1, N, t =>
    match sample_negative_example V.length vals indices b e ix rng t fuel with
    | none => none
    | some (j, t') =>
      if r - dotQ (U.getD u []) (V.getD j []) < 1 then some ((j : ℤ), N, t')
      else svneGo U V vals indices b e u ix r max_trials rng fuel m (N + 1) t'

/- sample_violating_negative_example: precompute r = U[u].dot(V[i]) and run
   at most max_trials - 1 candidate draws (trial numbers 1..max_trials-1). -/
def sample_violating_negative_example (U V : List (List ℚ)) (vals : List ℚ) (indices : List ℕ)
    (b e u ix i max_trials : ℕ) (rng : ℕ → ℕ) (fuel t : ℕ) : Option (ℤ × ℕ × ℕ) :=
  svneGo U V vals indices b e u ix (dotQ (U.getD u []) (V.getD i [])) max_trials rng fuel
    (max_trials - 1) 1 t

/- The sequence of k successive accepted candidates produced by
   sample_negative_example from rng position t, with the final position. -/
def negDraws (ni : ℕ) (vals : List ℚ) (indices : List ℕ) (b e ix : ℕ) (rng : ℕ → ℕ)
    (fuel : ℕ) : ℕ → ℕ → Option (List ℕ × ℕ)
  | t, 0 => some ([], t)
  | t, k + 1 =>
    match sample_negative_example ni vals indices b e ix rng t fuel with
    | none => none
    | some (j, t') =>
      match negDraws ni vals indices b e ix rng fuel t' k with
      | none => none
      | some (js, t'') => some (j :: js, t'')

/- The `while True` of warp_sample, with the running tot_trials counter. -/
def warpLoop (U V : List (List ℚ)) (vals : List ℚ) (indices indptr : List ℕ) (thresh : ℚ)
    (max_trials : ℕ) (rng : ℕ → ℕ) (ifuel : ℕ) : ℕ → ℕ → ℕ → Option (ℕ × ℕ × ℕ × ℕ × ℕ × ℕ)
  | _, _, 0 => none
  | tot, t, fuel + 1 =>
    match sample_positive_example thresh U.length vals indices indptr rng t ifuel with
    | none => none
    | some (u, ix, i, t1) =>
      match sample_violating_negative_example U V vals indices (indptr.getD u 0)
          (indptr.getD (u + 1) 0) u ix i max_trials rng ifuel t1 with
      | none => none
      | some (j, N, t2) =>
        if 0 ≤ j then some (u, i, j.toNat, N, tot + N, t2)
        else warpLoop U V vals indices indptr thresh max_trials rng ifuel (tot + N) t2 fuel

/- warp_sample: repeatedly draw a positive example and search for a
   violating negative, accumulating trials, until the search succeeds. -/
def warp_sample (U V : List (List ℚ)) (vals : List ℚ) (indices indptr : List ℕ) (thresh : ℚ)
    (max_trials : ℕ) (rng : ℕ → ℕ) (ifuel ofuel t : ℕ) : Option (ℕ × ℕ × ℕ × ℕ × ℕ × ℕ) :=
  warpLoop U V vals indices indptr thresh max_trials rng ifuel 0 t ofuel

/- RatingStore lookup: the rating of item x in the slice [b, e) of a
   user's row, found by the same first-match linear scan the source uses;
   none when the item is unrated there. -/
def rating (vals : List ℚ) (indices : List ℕ) (b e x : ℕ) : Option ℚ :=
  (scanFound indices x b e).map (fun jx => vals.getD jx 0)

/- The data-model assumption that a user's slice holds pairwise distinct
   item indices. -/
def sliceUnique (indices : List ℕ) (b e : ℕ) : Prop :=
  ∀ p, p < e → ∀ q, q < e → b ≤ p → p < q → indices.getD p 0 ≠ indices.getD q 0

/- Real-valued dot product for factor rows of the updater. -/
def dotR (x y : List ℝ) : ℝ := (List.zipWith (fun a b => a * b) x y).sum

/- Euclidean norm of a factor row, sqrt(F[row].T.dot(F[row])). -/
noncomputable def l2norm (x : List ℝ) : ℝ := Real.sqrt (dotR x x)

/- The in-place update F[row] += gamma*delta, componentwise. -/
def vupd (row delta : List ℝ) (gamma : ℝ) : List ℝ :=
  List.zipWith (fun a d => a + gamma * d) row delta

/- One iteration of apply_updates' loop on a single row: add the scaled
   delta, then if p = ||row||/C exceeds 1 divide the row by p. -/
noncomputable def updateRow (row delta : List ℝ) (gamma C : ℝ) : List ℝ :=
  let r := vupd row delta gamma
  let p := l2norm r / C
  if 1 < p then r.map (fun a => a / p) else r

/- The `for i in xrange(num)` loop of apply_updates over (row, delta) pairs. -/
noncomputable def applyLoop (gamma C : ℝ) : List (List ℝ) → List (ℕ × List ℝ) → List (List ℝ)
  | F, [] => F
  | F, (row, delta) :: rest =>
    applyLoop gamma C (F.set row (updateRow (F.getD row []) delta gamma C)) rest

/- apply_updates: the assert on the two lengths runs before the loop, so a
   mismatch fails with the matrix still in its initial state (the error
   payload); otherwise every (row, delta) pair is applied in order. -/
noncomputable def apply_updates (F : List (List ℝ)) (rows : List ℕ) (deltas : List (List ℝ))
    (gamma C : ℝ) : Except (List (List ℝ)) (List (List ℝ)) :=
  if rows.length = deltas.length then Except.ok (applyLoop gamma C F (rows.zip deltas))
  else Except.error F

/- One whole apply_updates call on a single row with a zero delta, as a
   total function on the matrix (for iterating it). -/
noncomputable def stepOnce (idx n : ℕ) (gamma C : ℝ) (G : List (List ℝ)) : List (List ℝ) :=
  match apply_updates G [idx] [List.replicate n 0] gamma C with
  | Except.ok G2 => G2
  | Except.error G2 => G2

/- ### Soundness of the linear scan -/

theorem scanFrom_none (indices : List ℕ) (jv : ℕ) :
    ∀ k p, scanFrom indices jv p k = none → ∀ q, p ≤ q → q < p + k → indices.getD q 0 ≠ jv := by
  intro k
  induction k with
  | zero => intro p _ q hpq hlt; exfalso; omega
  | succ k ih =>
    intro p h q hpq hlt
    simp only [scanFrom] at h
    by_cases hc : indices.getD p 0 = jv
    · rw [if_pos hc] at h
      exact Option.noConfusion h
    · rw [if_neg hc] at h
      rcases Nat.eq_or_lt_of_le hpq with hq | hq
      · subst hq; exact hc
      · exact ih (p + 1) h q hq (by omega)

theorem scanFrom_some (indices : List ℕ) (jv : ℕ) :
    ∀ k p jx, scanFrom indices jv p k = some jx →
      p ≤ jx ∧ jx < p + k ∧ indices.getD jx 0 = jv := by
  intro k
  induction k with
  | zero => intro p jx h; simp [scanFrom] at h
  | succ k ih =>
    intro p jx h
    simp only [scanFrom] at h
    by_cases hc : indices.getD p 0 = jv
    · rw [if_pos hc] at h
      injection h with h
      subst h
      exact ⟨le_refl _, by omega, hc⟩
    · rw [if_neg hc] at h
      obtain ⟨h1, h2, h3⟩ := ih (p + 1) jx h
      exact ⟨by omega, by omega, h3⟩

theorem scanFrom_isSome (indices : List ℕ) (jv : ℕ) :
    ∀ k p q, p ≤ q → q < p + k → indices.getD q 0 = jv →
      ∃ jx, scanFrom indices jv p k = some jx := by
  intro k
  induction k with
  | zero => intro p q h1 h2 _; exfalso; omega
  | succ k ih =>
    intro p q h1 h2 h3
    simp only [scanFrom]
    by_cases hc : indices.getD p 0 = jv
    · exact ⟨p, if_pos hc⟩
    · rw [if_neg hc]
      have hq : p + 1 ≤ q := by
        rcases Nat.eq_or_lt_of_le h1 with hq | hq
        · subst hq; exact absurd h3 hc
        · omega
      exact ih (p + 1) q hq (by omega) h3

theorem scanFound_none (indices : List ℕ) (jv b e : ℕ)
    (h : scanFound indices jv b e = none) :
    ∀ q, b ≤ q → q < e → indices.getD q 0 ≠ jv := by
  intro q h1 h2
  exact scanFrom_none indices jv (e - b) b h q h1 (by omega)

theorem scanFound_some (indices : List ℕ) (jv b e jx : ℕ)
    (h : scanFound indices jv b e = some jx) :
    b ≤ jx ∧ jx < e ∧ indices.getD jx 0 = jv := by
  obtain ⟨h1, h2, h3⟩ := scanFrom_some indices jv (e - b) b jx h
  exact ⟨h1, by omega, h3⟩

theorem scanFound_isSome (indices : List ℕ) (jv b e q : ℕ)
    (h1 : b ≤ q) (h2 : q < e) (h3 : indices.getD q 0 = jv) :
    ∃ jx, scanFound indices jv b e = some jx :=
  scanFrom_isSome indices jv (e - b) b q h1 (by omega) h3

/- ### Soundness of the candidate samplers -/

theorem sne_sound (ni : ℕ) (vals : List ℚ) (indices : List ℕ) (b e ix : ℕ) (rng : ℕ → ℕ) :
    ∀ fuel t j t', sample_negative_example ni vals indices b e ix rng t fuel = some (j, t') →
      (0 < ni → j < ni) ∧
      (scanFound indices j b e = none ∨
        ∃ jx, scanFound indices j b e = some jx ∧ vals.getD jx 0 < vals.getD ix 0) := by
  intro fuel
  induction fuel with
  | zero => intro t j t' h; simp [sample_negative_example] at h
  | succ fuel ih =>
    intro t j t' h
    simp only [sample_negative_example] at h
    split at h
    · rename_i hscan
      simp only [Option.some.injEq, Prod.mk.injEq] at h
      obtain ⟨rfl, rfl⟩ := h
      exact ⟨fun hni => Nat.mod_lt _ hni, Or.inl hscan⟩
    · rename_i jx hscan
      split at h
      · rename_i hlt
        simp only [Option.some.injEq, Prod.mk.injEq] at h
        obtain ⟨rfl, rfl⟩ := h
        exact ⟨fun hni => Nat.mod_lt _ hni, Or.inr ⟨jx, hscan, hlt⟩⟩
      · rename_i hlt
        exact ih (t + 1) j t' h

theorem spe_sound (thresh : ℚ) (nu : ℕ) (vals : List ℚ) (indices indptr : List ℕ)
    (rng : ℕ → ℕ) :
    ∀ fuel t u ix i t',
      sample_positive_example thresh nu vals indices indptr rng t fuel = some (u, ix, i, t') →
      (0 < nu → u < nu) ∧ indptr.getD u 0 ≤ ix ∧ ix < indptr.getD (u + 1) 0 ∧
      thresh ≤ vals.getD ix 0 ∧ i = indices.getD ix 0 := by
  intro fuel
  induction fuel with
  | zero => intro t u ix i t' h; simp [sample_positive_example] at h
  | succ fuel ih =>
    intro t u ix i t' h
    simp only [sample_positive_example] at h
    by_cases hbe : indptr.getD (rng t % nu) 0 < indptr.getD (rng t % nu + 1) 0
    · rw [if_pos hbe] at h
      by_cases hth : thresh ≤
          vals.getD (indptr.getD (rng t % nu) 0 +
            rng (t + 1) % (indptr.getD (rng t % nu + 1) 0 - indptr.getD (rng t % nu) 0)) 0
      · rw [if_pos hth] at h
        simp only [Option.some.injEq, Prod.mk.injEq] at h
        obtain ⟨rfl, rfl, rfl, rfl⟩ := h
        refine ⟨fun hnu => Nat.mod_lt _ hnu, Nat.le_add_right _ _, ?_, hth, rfl⟩
        have hm := Nat.mod_lt (rng (t + 1))
          (show 0 < indptr.getD (rng t % nu + 1) 0 - indptr.getD (rng t % nu) 0 by omega)
        omega
      · rw [if_neg hth] at h
        exact ih (t + 2) u ix i t' h
    · rw [if_neg hbe] at h
      exact ih (t + 1) u ix i t' h

/- ### Soundness of the violation search -/

theorem svneGo_success (U V : List (List ℚ)) (vals : List ℚ) (indices : List ℕ)
    (b e u ix : ℕ) (r : ℚ) (max_trials : ℕ) (rng : ℕ → ℕ) (fuel : ℕ) :
    ∀ m N t j Nout t',
      svneGo U V vals indices b e u ix r max_trials rng fuel m N t = some (j, Nout, t') →
      0 ≤ j →
      ∃ jn : ℕ, j = (jn : ℤ) ∧ N ≤ Nout ∧ Nout + 1 ≤ N + m ∧
        (0 < V.length → jn < V.length) ∧
        (scanFound indices jn b e = none ∨
          ∃ jx, scanFound indices jn b e = some jx ∧ vals.getD jx 0 < vals.getD ix 0) ∧
        r - dotQ (U.getD u []) (V.getD jn []) < 1 := by
  intro m
  induction m with
  | zero =>
    intro N t j Nout t' h hj
    simp only [svneGo, Option.some.injEq, Prod.mk.injEq] at h
    obtain ⟨rfl, -, -⟩ := h
    exact absurd hj (by decide)
  | succ m ih =>
    intro N t j Nout t' h hj
    simp only [svneGo] at h
    split at h
    · exact Option.noConfusion h
    · rename_i j0 t0 hsne
      split at h
      · rename_i hviol
        simp only [Option.some.injEq, Prod.mk.injEq] at h
        obtain ⟨rfl, rfl, rfl⟩ := h
        obtain ⟨hrange, hscan⟩ := sne_sound V.length vals indices b e ix rng fuel t j0 t0 hsne
        exact ⟨j0, rfl, le_refl _, by omega, hrange, hscan, hviol⟩
      · obtain ⟨jn, h1, h2, h3, h4, h5, h6⟩ := ih (N + 1) t0 j Nout t' h hj
        exact ⟨jn, h1, by omega, by omega, h4, h5, h6⟩

theorem svneGo_giveup (U V : List (List ℚ)) (vals : List ℚ) (indices : List ℕ)
    (b e u ix : ℕ) (r : ℚ) (max_trials : ℕ) (rng : ℕ → ℕ) (fuel : ℕ) :
    ∀ m N t j Nout t',
      svneGo U V vals indices b e u ix r max_trials rng fuel m N t = some (j, Nout, t') →
      ¬0 ≤ j → Nout = max_trials := by
  intro m
  induction m with
  | zero =>
    intro N t j Nout t' h _
    simp only [svneGo, Option.some.injEq, Prod.mk.injEq] at h
    exact h.2.1.symm
  | succ m ih =>
    intro N t j Nout t' h hj
    simp only [svneGo] at h
    split at h
    · exact Option.noConfusion h
    · rename_i j0 t0 hsne
      split at h
      · simp only [Option.some.injEq, Prod.mk.injEq] at h
        obtain ⟨rfl, -, -⟩ := h
        exact absurd (Int.ofNat_nonneg j0) hj
      · exact ih (N + 1) t0 j Nout t' h hj

theorem negDraws_cons (ni : ℕ) (vals : List ℚ) (indices : List ℕ) (b e ix : ℕ)
    (rng : ℕ → ℕ) (fuel t j t0 k : ℕ) (js : List ℕ) (t' : ℕ)
    (h1 : sample_negative_example ni vals indices b e ix rng t fuel = some (j, t0))
    (h2 : negDraws ni vals indices b e ix rng fuel t0 k = some (js, t')) :
    negDraws ni vals indices b e ix rng fuel t (k + 1) = some (j :: js, t') := by
  simp only [negDraws, h1, h2]

theorem svneGo_sound (U V : List (List ℚ)) (vals : List ℚ) (indices : List ℕ)
    (b e u ix : ℕ) (r : ℚ) (max_trials : ℕ) (rng : ℕ → ℕ) (fuel : ℕ) :
    ∀ m N t j Nout t',
      svneGo U V vals indices b e u ix r max_trials rng fuel m N t = some (j, Nout, t') →
      (j = -1 ∧ Nout = max_trials ∧
        ∃ js, negDraws V.length vals indices b e ix rng fuel t m = some (js, t') ∧
          js.length = m ∧ ∀ x ∈ js, ¬(r - dotQ (U.getD u []) (V.getD x []) < 1)) ∨
      (∃ pre x, Nout = N + pre.length ∧ pre.length + 1 ≤ m ∧
        negDraws V.length vals indices b e ix rng fuel t (pre.length + 1) =
          some (pre ++ [x], t') ∧
        j = (x : ℤ) ∧ (r - dotQ (U.getD u []) (V.getD x []) < 1) ∧
        ∀ y ∈ pre, ¬(r - dotQ (U.getD u []) (V.getD y []) < 1)) := by
  intro m
  induction m with
  | zero =>
    intro N t j Nout t' h
    simp only [svneGo, Option.some.injEq, Prod.mk.injEq] at h
    obtain ⟨rfl, rfl, rfl⟩ := h
    exact Or.inl ⟨rfl, rfl, [], rfl, rfl, by simp⟩
  | succ m ih =>
    intro N t j Nout t' h
    simp only [svneGo] at h
    split at h
    · exact Option.noConfusion h
    · rename_i j0 t0 hsne
      split at h
      · rename_i hviol
        simp only [Option.some.injEq, Prod.mk.injEq] at h
        obtain ⟨rfl, rfl, rfl⟩ := h
        refine Or.inr ⟨[], j0, by simp, by simp, ?_, rfl, hviol, by simp⟩
        simp [negDraws, hsne]
      · rename_i hviol
        rcases ih (N + 1) t0 j Nout t' h with
          ⟨hj, hN, js, hnd, hlen, hall⟩ | ⟨pre, x, hN, hle, hnd, hj, hx, hall⟩
        · refine Or.inl ⟨hj, hN, j0 :: js, ?_, by simp [hlen], ?_⟩
          · simp [negDraws, hsne, hnd]
          · intro x hx
            rcases List.mem_cons.mp hx with rfl | hx
            · exact hviol
            · exact hall x hx
        · refine Or.inr ⟨j0 :: pre, x, by simp [hN]; omega, by simp; omega, ?_, hj, hx, ?_⟩
          · simp only [List.length_cons, List.cons_append]
            exact negDraws_cons V.length vals indices b e ix rng fuel t j0 t0
              (pre.length + 1) (pre ++ [x]) t' hsne hnd
          · intro y hy
            rcases List.mem_cons.mp hy with rfl | hy
            · exact hviol
            · exact hall y hy

/- ### Soundness of the orchestration loop -/

theorem warpLoop_sound (U V : List (List ℚ)) (vals : List ℚ) (indices indptr : List ℕ)
    (thresh : ℚ) (max_trials : ℕ) (rng : ℕ → ℕ) (ifuel : ℕ) :
    ∀ fuel tot0 t u i j N tot t',
      warpLoop U V vals indices indptr thresh max_trials rng ifuel tot0 t fuel =
        some (u, i, j, N, tot, t') →
      (0 < U.length → u < U.length) ∧ (0 < V.length → j < V.length) ∧
      1 ≤ N ∧ N < max_trials ∧ (∃ f, tot = tot0 + f * max_trials + N) ∧
      ∃ ix, indptr.getD u 0 ≤ ix ∧ ix < indptr.getD (u + 1) 0 ∧
        thresh ≤ vals.getD ix 0 ∧ i = indices.getD ix 0 ∧
        (scanFound indices j (indptr.getD u 0) (indptr.getD (u + 1) 0) = none ∨
          ∃ jx, scanFound indices j (indptr.getD u 0) (indptr.getD (u + 1) 0) = some jx ∧
            vals.getD jx 0 < vals.getD ix 0) := by
  intro fuel
  induction fuel with
  | zero => intro tot0 t u i j N tot t' h; simp [warpLoop] at h
  | succ fuel ih =>
    intro tot0 t u i j N tot t' h
    simp only [warpLoop] at h
    split at h
    · exact Option.noConfusion h
    · rename_i u0 ix0 i0 t1 hspe
      split at h
      · exact Option.noConfusion h
      · rename_i jz N0 t2 hsvne
        rw [sample_violating_negative_example] at hsvne
        split at h
        · rename_i hj0
          simp only [Option.some.injEq, Prod.mk.injEq] at h
          obtain ⟨rfl, rfl, rfl, rfl, rfl, rfl⟩ := h
          obtain ⟨hu, hb, he, hth, hi⟩ :=
            spe_sound thresh U.length vals indices indptr rng ifuel t u0 ix0 i0 t1 hspe
          obtain ⟨jn, hjz, h1N, hNm, hrange, hscan, -⟩ :=
            svneGo_success U V vals indices (indptr.getD u0 0) (indptr.getD (u0 + 1) 0)
              u0 ix0 (dotQ (U.getD u0 []) (V.getD i0 [])) max_trials rng ifuel
              (max_trials - 1) 1 t1 jz N0 t2 hsvne hj0
          have hjn : jz.toNat = jn := by rw [hjz]; exact Int.toNat_natCast jn
          rw [hjn]
          refine ⟨hu, hrange, h1N, by omega, ⟨0, by omega⟩, ix0, hb, he, hth, hi, hscan⟩
        · rename_i hj0
          have hN0 : N0 = max_trials :=
            svneGo_giveup U V vals indices (indptr.getD u0 0) (indptr.getD (u0 + 1) 0)
              u0 ix0 (dotQ (U.getD u0 []) (V.getD i0 [])) max_trials rng ifuel
              (max_trials - 1) 1 t1 jz N0 t2 hsvne hj0
          obtain ⟨hu, hrange, h1N, hNm, ⟨f, hf⟩, hrest⟩ :=
            ih (tot0 + N0) t2 u i j N tot t' h
          refine ⟨hu, hrange, h1N, hNm, ⟨f + 1, ?_⟩, hrest⟩
          rw [hf, hN0]
          ring

/- ### Helper facts for the factor updater -/

theorem dotR_cons (a b : ℝ) (x y : List ℝ) :
    dotR (a :: x) (b :: y) = a * b + dotR x y := by
  simp [dotR]

theorem dotR_nonneg (x : List ℝ) : 0 ≤ dotR x x := by
  induction x with
  | nil => simp [dotR]
  | cons a x ih =>
    rw [dotR_cons]
    exact add_nonneg (mul_self_nonneg a) ih

theorem dotR_map_div (p : ℝ) (x : List ℝ) :
    dotR (x.map (fun a => a / p)) (x.map (fun a => a / p)) = dotR x x / p ^ 2 := by
  induction x with
  | nil => simp [dotR]
  | cons a x ih =>
    rw [List.map_cons, dotR_cons, dotR_cons, ih, add_div]
    ring

theorem vupd_zero (row : List ℝ) (gamma : ℝ) :
    vupd row (List.replicate row.length 0) gamma = row := by
  induction row with
  | nil => simp [vupd]
  | cons a x ih =>
    simp only [List.length_cons, List.replicate_succ, vupd, List.zipWith_cons_cons,
      mul_zero, add_zero]
    exact congrArg (a :: ·) ih

theorem set_getD_self {α : Type} (d : α) :
    ∀ (l : List α) (i : ℕ), i < l.length → l.set i (l.getD i d) = l := by
  intro l
  induction l with
  | nil => intro i h; simp at h
  | cons a l ih =>
    intro i h
    cases i with
    | zero => simp [List.getD]
    | succ i =>
      simp only [List.getD_cons_succ, List.set_cons_succ]
      exact congrArg (a :: ·) (ih i (by simpa using h))

theorem getD_set_ne {α : Type} (d : α) :
    ∀ (l : List α) (i j : ℕ) (v : α), j ≠ i → (l.set i v).getD j d = l.getD j d := by
  intro l
  induction l with
  | nil => intro i j v _; simp
  | cons a l ih =>
    intro i j v hne
    cases i with
    | zero =>
      cases j with
      | zero => exact absurd rfl hne
      | succ j => simp [List.getD_cons_succ]
    | succ i =>
      cases j with
      | zero => simp [List.getD_cons_zero]
      | succ j =>
        simp only [List.set_cons_succ, List.getD_cons_succ]
        exact ih i j v (fun h => hne (by rw [h]))

theorem applyLoop_frame (gamma C : ℝ) :
    ∀ (pairs : List (ℕ × List ℝ)) (F : List (List ℝ)) (idx : ℕ),
      idx ∉ pairs.map Prod.fst →
      (applyLoop gamma C F pairs).getD idx [] = F.getD idx [] ∧
      (applyLoop gamma C F pairs).length = F.length := by
  intro pairs
  induction pairs with
  | nil => intro F idx _; exact ⟨rfl, rfl⟩
  | cons rd rest ih =>
    intro F idx h
    obtain ⟨row, delta⟩ := rd
    simp only [List.map_cons, List.mem_cons, not_or] at h
    obtain ⟨hne, hrest⟩ := h
    simp only [applyLoop]
    obtain ⟨h1, h2⟩ :=
      ih (F.set row (updateRow (F.getD row []) delta gamma C)) idx hrest
    rw [h1, h2]
    exact ⟨getD_set_ne [] F row idx _ hne, by simp⟩

/- ### Claim theorems: sampling -/

/-- Claim C1: every triple (u, i, j, N, totalTrials) returned by warp_sample
satisfies rating(u, i) at least positiveThreshold, and either j is absent
from user u's rated items or rating(u, j) is strictly below rating(u, i).
Ratings are looked up by the RatingStore first-match scan; the user's slice
is assumed to hold pairwise distinct item indices (the data-model invariant
the spec states for CSR rows). -/
theorem warp_triple_rating_valid (U V : List (List ℚ)) (vals : List ℚ)
    (indices indptr : List ℕ) (thresh : ℚ) (max_trials : ℕ) (rng : ℕ → ℕ)
    (ifuel ofuel t u i j N tot t' : ℕ)
    (hw : warp_sample U V vals indices indptr thresh max_trials rng ifuel ofuel t =
      some (u, i, j, N, tot, t'))
    (huniq : sliceUnique indices (indptr.getD u 0) (indptr.getD (u + 1) 0)) :
    ∃ ri, rating vals indices (indptr.getD u 0) (indptr.getD (u + 1) 0) i = some ri ∧
      thresh ≤ ri ∧
      (rating vals indices (indptr.getD u 0) (indptr.getD (u + 1) 0) j = none ∨
        ∃ rj, rating vals indices (indptr.getD u 0) (indptr.getD (u + 1) 0) j = some rj ∧
          rj < ri) := by
  rw [warp_sample] at hw
  obtain ⟨-, -, -, -, -, ix, hb, he, hth, hi, hscanj⟩ :=
    warpLoop_sound U V vals indices indptr thresh max_trials rng ifuel
      ofuel 0 t u i j N tot t' hw
  obtain ⟨jx0, hjx0⟩ :=
    scanFound_isSome indices i (indptr.getD u 0) (indptr.getD (u + 1) 0) ix hb he hi.symm
  obtain ⟨hbjx0, hjx0e, hidx0⟩ :=
    scanFound_some indices i (indptr.getD u 0) (indptr.getD (u + 1) 0) jx0 hjx0
  have hex : jx0 = ix := by
    rcases lt_trichotomy jx0 ix with h | h | h
    · exact absurd (hidx0.trans hi) (huniq jx0 hjx0e ix he hbjx0 h)
    · exact h
    · exact absurd (hi.symm.trans hidx0.symm) (huniq ix he jx0 hjx0e hb h)
  subst hex
  refine ⟨vals.getD jx0 0, by simp only [rating, hjx0, Option.map_some'], hth, ?_⟩
  rcases hscanj with hnone | ⟨jx, hsome, hlt⟩
  · exact Or.inl (by simp only [rating, hnone, Option.map_none'])
  · exact Or.inr ⟨vals.getD jx 0, by simp only [rating, hsome, Option.map_some'], hlt⟩

/-- Claim C2: every triple returned by warp_sample has j different from i,
provided the column indices within user u's row slice are pairwise
distinct; this follows from the rating-comparison rejection rule alone
(the candidate scan rejects the position of the positive item because its
rating is not strictly below itself) — the embedding, like the source,
contains no identity comparison between j and i. -/
theorem warp_triple_neg_ne_pos (U V : List (List ℚ)) (vals : List ℚ)
    (indices indptr : List ℕ) (thresh : ℚ) (max_trials : ℕ) (rng : ℕ → ℕ)
    (ifuel ofuel t u i j N tot t' : ℕ)
    (hw : warp_sample U V vals indices indptr thresh max_trials rng ifuel ofuel t =
      some (u, i, j, N, tot, t'))
    (huniq : sliceUnique indices (indptr.getD u 0) (indptr.getD (u + 1) 0)) :
    j ≠ i := by
  rw [warp_sample] at hw
  obtain ⟨-, -, -, -, -, ix, hb, he, hth, hi, hscanj⟩ :=
    warpLoop_sound U V vals indices indptr thresh max_trials rng ifuel
      ofuel 0 t u i j N tot t' hw
  intro hji
  subst hji
  rcases hscanj with hnone | ⟨jx, hsome, hlt⟩
  · exact scanFound_none indices j (indptr.getD u 0) (indptr.getD (u + 1) 0) hnone
      ix hb he hi.symm
  · obtain ⟨hbjx, hjxe, hidx⟩ :=
      scanFound_some indices j (indptr.getD u 0) (indptr.getD (u + 1) 0) jx hsome
    rcases lt_trichotomy jx ix with h | h | h
    · exact huniq jx hjxe ix he hbjx h (hidx.trans hi)
    · subst h; exact absurd hlt (lt_irrefl _)
    · exact huniq ix he jx hjxe hb h (hi.symm.trans hidx.symm)

/-- Claim C3: sample_violating_negative_example attempts at most
maxTrials - 1 candidate draws; when the n-th draw x is the first draw whose
margin U[u].V[i] - U[u].V[x] falls below 1, it returns (x, n); when all
maxTrials - 1 draws fail the margin condition, it returns the sentinel
(-1, maxTrials). -/
theorem svne_trial_characterization (U V : List (List ℚ)) (vals : List ℚ)
    (indices : List ℕ) (b e u ix i max_trials : ℕ) (rng : ℕ → ℕ) (fuel t : ℕ)
    (j : ℤ) (N t' : ℕ)
    (h : sample_violating_negative_example U V vals indices b e u ix i max_trials
      rng fuel t = some (j, N, t')) :
    (j = -1 ∧ N = max_trials ∧
      ∃ js, negDraws V.length vals indices b e ix rng fuel t (max_trials - 1) =
        some (js, t') ∧ js.length = max_trials - 1 ∧
        ∀ x ∈ js, ¬(dotQ (U.getD u []) (V.getD i []) - dotQ (U.getD u []) (V.getD x []) < 1)) ∨
    (∃ pre x, N = pre.length + 1 ∧ N ≤ max_trials - 1 ∧
      negDraws V.length vals indices b e ix rng fuel t N = some (pre ++ [x], t') ∧
      j = (x : ℤ) ∧
      dotQ (U.getD u []) (V.getD i []) - dotQ (U.getD u []) (V.getD x []) < 1 ∧
      ∀ y ∈ pre, ¬(dotQ (U.getD u []) (V.getD i []) - dotQ (U.getD u []) (V.getD y []) < 1)) := by
  rw [sample_violating_negative_example] at h
  rcases svneGo_sound U V vals indices b e u ix (dotQ (U.getD u []) (V.getD i []))
      max_trials rng fuel (max_trials - 1) 1 t j N t' h with
    ⟨hj, hN, js, hnd, hlen, hall⟩ | ⟨pre, x, hN, hle, hnd, hj, hx, hall⟩
  · exact Or.inl ⟨hj, hN, js, hnd, hlen, hall⟩
  · refine Or.inr ⟨pre, x, by omega, by omega, ?_, hj, hx, hall⟩
    rw [show N = pre.length + 1 by omega]
    exact hnd

/-- Claim C4: with maxTrials = 1 the trial loop's range 1..0 is empty, so
sample_violating_negative_example returns the sentinel (-1, 1) for every
input, drawing no candidate and consuming no randomness (the returned rng
position equals the initial one), independently of the factor matrices. -/
theorem svne_max_trials_one_sentinel (U V : List (List ℚ)) (vals : List ℚ)
    (indices : List ℕ) (b e u ix i : ℕ) (rng : ℕ → ℕ) (fuel t : ℕ) :
    sample_violating_negative_example U V vals indices b e u ix i 1 rng fuel t =
      some (-1, 1, t) := rfl

/-- Claim C6: whenever warp_sample returns, the negative item is a real
item index (the -1 sentinel is never surfaced: under a nonempty item
universe j lies below numItems), N is the trial count of the single
successful violation-search attempt (so 1 <= N <= maxTrials - 1), and
totalTrials is N plus maxTrials for each discarded attempt, hence at
least N. -/
theorem warp_triple_counts (U V : List (List ℚ)) (vals : List ℚ)
    (indices indptr : List ℕ) (thresh : ℚ) (max_trials : ℕ) (rng : ℕ → ℕ)
    (ifuel ofuel t u i j N tot t' : ℕ)
    (hw : warp_sample U V vals indices indptr thresh max_trials rng ifuel ofuel t =
      some (u, i, j, N, tot, t')) :
    1 ≤ N ∧ N + 1 ≤ max_trials ∧ N ≤ tot ∧ (∃ f, tot = f * max_trials + N) ∧
      (0 < V.length → j < V.length) := by
  rw [warp_sample] at hw
  obtain ⟨-, hrange, h1, h2, ⟨f, hf⟩, -⟩ :=
    warpLoop_sound U V vals indices indptr thresh max_trials rng ifuel
      ofuel 0 t u i j N tot t' hw
  rw [Nat.zero_add] at hf
  exact ⟨h1, by omega, by rw [hf]; exact Nat.le_add_left _ _, ⟨f, hf⟩, hrange⟩

/-- Claim C10: the samplers draw indices as rand() mod numUsers and
rand() mod numItems with no guard on a zero count (the model, like the
C code, performs the raw modulo); under the unstated precondition that
numUsers and numItems are at least 1, every user index returned by
sample_positive_example, every candidate returned by
sample_negative_example, and the user and item of every warp_sample triple
lie in [0, numUsers) respectively [0, numItems). -/
theorem sampler_index_ranges :
    (∀ (thresh : ℚ) (nu : ℕ) (vals : List ℚ) (indices indptr : List ℕ)
        (rng : ℕ → ℕ) (t fuel u ix i t' : ℕ),
      sample_positive_example thresh nu vals indices indptr rng t fuel =
        some (u, ix, i, t') → 0 < nu → u < nu) ∧
    (∀ (ni : ℕ) (vals : List ℚ) (indices : List ℕ) (b e ix : ℕ)
        (rng : ℕ → ℕ) (t fuel j t' : ℕ),
      sample_negative_example ni vals indices b e ix rng t fuel = some (j, t') →
        0 < ni → j < ni) ∧
    (∀ (U V : List (List ℚ)) (vals : List ℚ) (indices indptr : List ℕ) (thresh : ℚ)
        (max_trials : ℕ) (rng : ℕ → ℕ) (ifuel ofuel t u i j N tot t' : ℕ),
      warp_sample U V vals indices indptr thresh max_trials rng ifuel ofuel t =
        some (u, i, j, N, tot, t') →
      0 < U.length → 0 < V.length → u < U.length ∧ j < V.length) := by
  refine ⟨?_, ?_, ?_⟩
  · intro thresh nu vals indices indptr rng t fuel u ix i t' h hnu
    exact (spe_sound thresh nu vals indices indptr rng fuel t u ix i t' h).1 hnu
  · intro ni vals indices b e ix rng t fuel j t' h hni
    exact (sne_sound ni vals indices b e ix rng fuel t j t' h).1 hni
  · intro U V vals indices indptr thresh max_trials rng ifuel ofuel t u i j N tot t' h hU hV
    rw [warp_sample] at h
    obtain ⟨hu, hj, -⟩ :=
      warpLoop_sound U V vals indices indptr thresh max_trials rng ifuel
        ofuel 0 t u i j N tot t' h
    exact ⟨hu hU, hj hV⟩

/- ### Claim theorems: factor updater -/

/-- Claim C5: apply_updates fails whenever the number of rows differs from
the number of delta vectors, and in that failure no row of F has been
mutated: the length check runs before the first update, so the failure
carries the matrix in its initial state. -/
theorem apply_updates_length_mismatch_error (F : List (List ℝ)) (rows : List ℕ)
    (deltas : List (List ℝ)) (gamma C : ℝ) (h : rows.length ≠ deltas.length) :
    apply_updates F rows deltas gamma C = Except.error F := by
  rw [apply_updates, if_neg h]

/-- Claim C7: apply_updates on the row [3, 4] (norm 5) with a zero delta,
gamma = 1 and C = 1 rescales the row to [3/5, 4/5] of norm exactly 1; in
general, whenever the post-update norm of a row exceeds C, the row is
divided by p = norm / C and its new L2 norm equals exactly C. -/
theorem apply_updates_projection_norm :
    apply_updates [[3, 4]] [0] [[0, 0]] 1 1 = Except.ok [[3 / 5, 4 / 5]] ∧
    ∀ (row delta : List ℝ) (gamma C : ℝ), 0 < C → C < l2norm (vupd row delta gamma) →
      l2norm (updateRow row delta gamma C) = C := by
  constructor
  · have hvu : vupd [(3 : ℝ), 4] [0, 0] 1 = [3, 4] := by norm_num [vupd]
    have hdot : dotR [(3 : ℝ), 4] [3, 4] = 25 := by norm_num [dotR]
    have hl2 : l2norm [(3 : ℝ), 4] = 5 := by
      rw [l2norm, hdot, show (25 : ℝ) = 5 ^ 2 by norm_num,
        Real.sqrt_sq (by norm_num : (0 : ℝ) ≤ 5)]
    have hup : updateRow [(3 : ℝ), 4] [0, 0] 1 1 = [3 / 5, 4 / 5] := by
      simp only [updateRow, hvu, hl2]
      norm_num
    have step : apply_updates [[(3 : ℝ), 4]] [0] [[0, 0]] 1 1 =
        Except.ok (List.set [[(3 : ℝ), 4]] 0 (updateRow [3, 4] [0, 0] 1 1)) := rfl
    rw [step, hup]
    rfl
  · intro row delta gamma C hC hnorm
    have hp1 : 1 < l2norm (vupd row delta gamma) / C := (one_lt_div hC).mpr hnorm
    simp only [updateRow]
    rw [if_pos hp1]
    have hsnn : (0 : ℝ) ≤ l2norm (vupd row delta gamma) := Real.sqrt_nonneg _
    have hspos : 0 < l2norm (vupd row delta gamma) := lt_trans hC hnorm
    have hppos : 0 < l2norm (vupd row delta gamma) / C := div_pos hspos hC
    rw [l2norm, dotR_map_div]
    have hdd : dotR (vupd row delta gamma) (vupd row delta gamma) =
        l2norm (vupd row delta gamma) ^ 2 := by
      rw [l2norm, Real.sq_sqrt (dotR_nonneg _)]
    rw [hdd, ← div_pow, Real.sqrt_sq (div_nonneg hsnn (le_of_lt hppos)),
      div_div_eq_mul_div, mul_comm, mul_div_assoc, div_self (ne_of_gt hspos), mul_one]

/-- Claim C8: a row whose L2 norm already equals C is a fixed point of
apply_updates with a zero delta: p = norm / C = 1 is not greater than 1, so
no rescaling triggers and the matrix is returned unchanged; iterating the
call any number of times leaves it unchanged as well. -/
theorem apply_updates_normed_fixed_point (F : List (List ℝ)) (idx : ℕ) (gamma C : ℝ)
    (hidx : idx < F.length) (hC : 0 < C) (hn : l2norm (F.getD idx []) = C) :
    apply_updates F [idx] [List.replicate (F.getD idx []).length 0] gamma C =
      Except.ok F ∧
    ∀ k : ℕ, (stepOnce idx (F.getD idx []).length gamma C)^[k] F = F := by
  have hrow : updateRow (F.getD idx []) (List.replicate (F.getD idx []).length 0)
      gamma C = F.getD idx [] := by
    simp only [updateRow, vupd_zero, hn, div_self (ne_of_gt hC)]
    rw [if_neg (lt_irrefl 1)]
  have hloop : applyLoop gamma C F [(idx, List.replicate (F.getD idx []).length 0)] = F := by
    simp only [applyLoop]
    rw [hrow, set_getD_self [] F idx hidx]
  have h1 : apply_updates F [idx] [List.replicate (F.getD idx []).length 0] gamma C =
      Except.ok F := by
    unfold apply_updates
    rw [if_pos (by rfl)]
    exact congrArg Except.ok hloop
  refine ⟨h1, fun k => Function.iterate_fixed ?_ k⟩
  simp only [stepOnce, h1]

/-- Claim C9: apply_updates mutates only the rows listed in its rows
argument: every row index not occurring in rows holds the same row before
and after the call, and the matrix keeps its length (in this functional
embedding the arguments themselves are of course unchanged). -/
theorem apply_updates_frame (F : List (List ℝ)) (rows : List ℕ) (deltas : List (List ℝ))
    (gamma C : ℝ) (F2 : List (List ℝ))
    (h : apply_updates F rows deltas gamma C = Except.ok F2) (idx : ℕ)
    (hidx : idx ∉ rows) :
    F2.getD idx [] = F.getD idx [] ∧ F2.length = F.length := by
  unfold apply_updates at h
  split at h
  · rename_i hlen
    injection h with h
    subst h
    have hmap : (rows.zip deltas).map Prod.fst = rows :=
      List.map_fst_zip rows deltas (le_of_eq hlen)
    exact applyLoop_frame gamma C (rows.zip deltas) F idx (by rw [hmap]; exact hidx)
  · exact Except.noConfusion h

/- ### Concrete witnesses -/

theorem warp_triple_rating_valid_inst :
    ∃ ri, rating [5] [0] 0 1 0 = some ri ∧ (5 : ℚ) ≤ ri ∧
      (rating [5] [0] 0 1 1 = none ∨
        ∃ rj, rating [5] [0] 0 1 1 = some rj ∧ rj < ri) :=
  warp_triple_rating_valid [[1]] [[1], [5]] [5] [0] [0, 1] 5 3 (fun t => t) 3 1 0 0 0 1 1 1 4
    (by norm_num [warp_sample, warpLoop, sample_positive_example,
      sample_violating_negative_example, svneGo, sample_negative_example, scanFound,
      scanFrom, dotQ])
    (by show sliceUnique [0] 0 1
        intro p hp q hq hbp hpq
        omega)

theorem warp_triple_neg_ne_pos_inst : (1 : ℕ) ≠ 0 :=
  warp_triple_neg_ne_pos [[1]] [[1], [5]] [5] [0] [0, 1] 5 3 (fun t => t) 3 1 0 0 0 1 1 1 4
    (by norm_num [warp_sample, warpLoop, sample_positive_example,
      sample_violating_negative_example, svneGo, sample_negative_example, scanFound,
      scanFrom, dotQ])
    (by show sliceUnique [0] 0 1
        intro p hp q hq hbp hpq
        omega)

theorem svne_trial_characterization_inst :
    ((1 : ℤ) = -1 ∧ (1 : ℕ) = 3 ∧
      ∃ js, negDraws 2 [5] [0] 0 1 0 (fun t => t) 3 2 2 = some (js, 4) ∧ js.length = 2 ∧
        ∀ x ∈ js, ¬(dotQ [1] [1] - dotQ [1] (List.getD [[1], [5]] x []) < 1)) ∨
    (∃ pre x, (1 : ℕ) = pre.length + 1 ∧ (1 : ℕ) ≤ 2 ∧
      negDraws 2 [5] [0] 0 1 0 (fun t => t) 3 2 1 = some (pre ++ [x], 4) ∧
      (1 : ℤ) = (x : ℤ) ∧ dotQ [1] [1] - dotQ [1] (List.getD [[1], [5]] x []) < 1 ∧
      ∀ y ∈ pre, ¬(dotQ [1] [1] - dotQ [1] (List.getD [[1], [5]] y []) < 1)) :=
  svne_trial_characterization [[1]] [[1], [5]] [5] [0] 0 1 0 0 0 3 (fun t => t) 3 2 1 1 4
    (by norm_num [sample_violating_negative_example, svneGo, sample_negative_example,
      scanFound, scanFrom, dotQ])

theorem warp_triple_counts_inst :
    1 ≤ 1 ∧ 1 + 1 ≤ 3 ∧ 1 ≤ 1 ∧ (∃ f, 1 = f * 3 + 1) ∧ ((0 : ℕ) < 2 → (1 : ℕ) < 2) :=
  warp_triple_counts [[1]] [[1], [5]] [5] [0] [0, 1] 5 3 (fun t => t) 3 1 0 0 0 1 1 1 4
    (by norm_num [warp_sample, warpLoop, sample_positive_example,
      sample_violating_negative_example, svneGo, sample_negative_example, scanFound,
      scanFrom, dotQ])

theorem sampler_index_ranges_inst :
    (0 : ℕ) < 1 ∧ (1 : ℕ) < 2 ∧ ((0 : ℕ) < 1 ∧ (1 : ℕ) < 2) :=
  ⟨sampler_index_ranges.1 5 1 [5] [0] [0, 1] (fun t => t) 0 3 0 0 0 2 (by decide) (by decide),
   sampler_index_ranges.2.1 2 [5] [0] 0 1 0 (fun t => t) 2 3 1 4 (by decide) (by decide),
   sampler_index_ranges.2.2 [[1]] [[1], [5]] [5] [0] [0, 1] 5 3 (fun t => t) 3 1 0 0 0 1 1 1 4
     (by norm_num [warp_sample, warpLoop, sample_positive_example,
       sample_violating_negative_example, svneGo, sample_negative_example, scanFound,
       scanFrom, dotQ])
     (by decide) (by decide)⟩

theorem apply_updates_length_mismatch_error_inst :
    apply_updates [[3]] [0] [] 1 1 = Except.error [[3]] :=
  apply_updates_length_mismatch_error [[3]] [0] [] 1 1 (by decide)

theorem apply_updates_projection_norm_inst :
    0 < (1 : ℝ) ∧ 1 < l2norm (vupd [3, 4] [0, 0] 1) ∧
      l2norm (updateRow [3, 4] [0, 0] 1 1) = 1 := by
  have hvu : vupd [(3 : ℝ), 4] [0, 0] 1 = [3, 4] := by norm_num [vupd]
  have h5 : (1 : ℝ) < l2norm (vupd [3, 4] [0, 0] 1) := by
    rw [hvu, l2norm, show dotR [(3 : ℝ), 4] [3, 4] = 25 by norm_num [dotR],
      show (25 : ℝ) = 5 ^ 2 by norm_num, Real.sqrt_sq (by norm_num : (0 : ℝ) ≤ 5)]
    norm_num
  exact ⟨by norm_num, h5,
    apply_updates_projection_norm.2 [3, 4] [0, 0] 1 1 (by norm_num) h5⟩

theorem apply_updates_normed_fixed_point_inst :
    apply_updates [[3, 4]] [0] [[0, 0]] 2 5 = Except.ok [[3, 4]] ∧
    ∀ k : ℕ, (stepOnce 0 2 2 5)^[k] [[3, 4]] = [[3, 4]] := by
  have hn : l2norm (List.getD [[(3 : ℝ), 4]] 0 []) = 5 := by
    rw [show List.getD [[(3 : ℝ), 4]] 0 [] = [3, 4] from rfl, l2norm,
      show dotR [(3 : ℝ), 4] [3, 4] = 25 by norm_num [dotR],
      show (25 : ℝ) = 5 ^ 2 by norm_num, Real.sqrt_sq (by norm_num : (0 : ℝ) ≤ 5)]
  exact apply_updates_normed_fixed_point [[3, 4]] 0 2 5 (by norm_num) (by norm_num) hn

theorem apply_updates_frame_inst :
    List.getD [[(1 : ℝ)], [2]] 1 [] = List.getD [[(1 : ℝ)], [2]] 1 [] ∧
      List.length [[(1 : ℝ)], [2]] = List.length [[(1 : ℝ)], [2]] := by
  have hvu : vupd [(1 : ℝ)] [0] 3 = [1] := by norm_num [vupd]
  have hl2 : l2norm [(1 : ℝ)] = 1 := by
    rw [l2norm, show dotR [(1 : ℝ)] [1] = 1 by norm_num [dotR], Real.sqrt_one]
  have hup : updateRow [(1 : ℝ)] [0] 3 2 = [1] := by
    simp only [updateRow, hvu, hl2]
    norm_num
  have happ : apply_updates [[(1 : ℝ)], [2]] [0] [[0]] 3 2 = Except.ok [[1], [2]] := by
    have step : apply_updates [[(1 : ℝ)], [2]] [0] [[0]] 3 2 =
        Except.ok (List.set [[(1 : ℝ)], [2]] 0 (updateRow [1] [0] 3 2)) := rfl
    rw [step, hup]
    rfl
  exact apply_updates_frame [[1], [2]] [0] [[0]] 3 2 [[1], [2]] happ 1 (by decide)
